import Mathlib

/-!
# A verification development for the `InMemoryTable` store of `src/bigcode.ts`

This file embeds, shallowly, the in-memory tabular store implemented by the
class `InMemoryTable<T>` in `src/bigcode.ts` (lines 149–215), together with the
helpers it uses (`deepClone`, line 94–96, and `makeId`, line 82–88), and proves
the behavioural properties claimed for it.

Modelling decisions (each noted again at the relevant definition):

* JavaScript objects (`TableRow = Record<string, any>`) are modelled as
  association lists `List (String × Value)` in property order; a JS object
  cannot contain a duplicate key, and all rows built by the store's own
  operations keep keys unique.
* JS `Map<ID, T>` is modelled as an association list in insertion order:
  `Map.prototype.set` overwrites in place (keeping the original position of an
  existing key) or appends, which `jsMapSet` mirrors; `Array.from(map.values())`
  is the list of values in that order.
* Field values are modelled by the inductive `Value`, covering the
  JSON-representable values (`null`, booleans, numbers, strings, arrays,
  objects).  Numbers are modelled as integers (`Int`); the claims under
  verification only ever exercise integer-valued fields, and IEEE-754
  peculiarities (NaN, -0, rounding) are outside the model.
* `deepClone` (a `JSON.parse(JSON.stringify _)` round trip) is modelled as the
  structural copy `cloneVal`/`cloneRow`; on the JSON-representable values of
  `Value` the round trip is value-preserving, which `cloneVal_eq` proves.
* `Math.random()`-based id generation (`makeId`) is modelled by passing the
  string `makeId` would produce as an explicit argument to `insert`; the
  function `makeId` itself is modelled on its output shape (two random hex
  groups and a timestamp base-36 group joined by a dash after the prefix),
  enough to establish that a generated id is never the empty string.
-/

set_option autoImplicit false

namespace BigCode

/-- A JSON-representable JavaScript value: the value domain of the rows stored
by `InMemoryTable` (`type TableRow = Record<string, any>` restricted to the
data actually representable through the store's `deepClone` round trip).
Numbers are modelled as integers. -/
inductive Value where
  | vnull
  | vbool (b : Bool)
  | vnum (n : Int)
  | vstr (s : String)
  | varr (elems : List Value)
  | vobj (fields : List (String × Value))
  deriving Repr

mutual

/-- Decidable equality for `Value` (written by hand: `Value` is a nested
inductive, for which automatic derivation is unavailable). -/
def decEqVal : (a b : Value) → Decidable (a = b)
  | .vnull, .vnull => isTrue rfl
  | .vbool a, .vbool b =>
    if h : a = b then isTrue (by rw [h]) else isFalse (by simp [h])
  | .vnum a, .vnum b =>
    if h : a = b then isTrue (by rw [h]) else isFalse (by simp [h])
  | .vstr a, .vstr b =>
    if h : a = b then isTrue (by rw [h]) else isFalse (by simp [h])
  | .varr l, .varr m =>
    match decEqValList l m with
    | isTrue h => isTrue (by rw [h])
    | isFalse h => isFalse (by simp [h])
  | .vobj l, .vobj m =>
    match decEqValObj l m with
    | isTrue h => isTrue (by rw [h])
    | isFalse h => isFalse (by simp [h])
  | .vnull, .vbool _ | .vnull, .vnum _ | .vnull, .vstr _ | .vnull, .varr _
  | .vnull, .vobj _ => isFalse (by simp)
  | .vbool _, .vnull | .vbool _, .vnum _ | .vbool _, .vstr _ | .vbool _, .varr _
  | .vbool _, .vobj _ => isFalse (by simp)
  | .vnum _, .vnull | .vnum _, .vbool _ | .vnum _, .vstr _ | .vnum _, .varr _
  | .vnum _, .vobj _ => isFalse (by simp)
  | .vstr _, .vnull | .vstr _, .vbool _ | .vstr _, .vnum _ | .vstr _, .varr _
  | .vstr _, .vobj _ => isFalse (by simp)
  | .varr _, .vnull | .varr _, .vbool _ | .varr _, .vnum _ | .varr _, .vstr _
  | .varr _, .vobj _ => isFalse (by simp)
  | .vobj _, .vnull | .vobj _, .vbool _ | .vobj _, .vnum _ | .vobj _, .vstr _
  | .vobj _, .varr _ => isFalse (by simp)

def decEqValList : (l m : List Value) → Decidable (l = m)
  | [], [] => isTrue rfl
  | [], _ :: _ => isFalse (by simp)
  | _ :: _, [] => isFalse (by simp)
  | a :: l, b :: m =>
    match decEqVal a b, decEqValList l m with
    | isTrue h₁, isTrue h₂ => isTrue (by rw [h₁, h₂])
    | isFalse h₁, _ => isFalse (by simp [h₁])
    | _, isFalse h₂ => isFalse (by simp [h₂])

def decEqValObj : (l m : List (String × Value)) → Decidable (l = m)
  | [], [] => isTrue rfl
  | [], _ :: _ => isFalse (by simp)
  | _ :: _, [] => isFalse (by simp)
  | (k, a) :: l, (k', b) :: m =>
    if hk : k = k' then
      match decEqVal a b, decEqValObj l m with
      | isTrue h₁, isTrue h₂ => isTrue (by rw [hk, h₁, h₂])
      | isFalse h₁, _ => isFalse (by simp [h₁])
      | _, isFalse h₂ => isFalse (by simp [h₂])
    else isFalse (by simp [hk])

end

instance : DecidableEq Value := decEqVal

/-- A row (`TableRow = Record<string, any>`): a JS object modelled as an
association list of properties in property order. -/
abbrev TableRow := List (String × Value)

mutual

/-- Structural copy of a value: the model of the `deepClone` round trip
`JSON.parse(JSON.stringify(obj))` of `src/bigcode.ts` line 94–96 applied to
one field value. -/
def cloneVal : Value → Value
  | .vnull => .vnull
  | .vbool b => .vbool b
  | .vnum n => .vnum n
  | .vstr s => .vstr s
  | .varr l => .varr (cloneValList l)
  | .vobj l => .vobj (cloneValObj l)

def cloneValList : List Value → List Value
  | [] => []
  | v :: vs => cloneVal v :: cloneValList vs

def cloneValObj : List (String × Value) → List (String × Value)
  | [] => []
  | (k, v) :: ps => (k, cloneVal v) :: cloneValObj ps

end

mutual

/-- On JSON-representable values the `deepClone` round trip is the identity. -/
theorem cloneVal_eq : ∀ v : Value, cloneVal v = v
  | .vnull => rfl
  | .vbool _ => rfl
  | .vnum _ => rfl
  | .vstr _ => rfl
  | .varr l => by rw [cloneVal, cloneValList_eq l]
  | .vobj l => by rw [cloneVal, cloneValObj_eq l]

theorem cloneValList_eq : ∀ l : List Value, cloneValList l = l
  | [] => rfl
  | v :: vs => by rw [cloneValList, cloneVal_eq v, cloneValList_eq vs]

theorem cloneValObj_eq : ∀ l : List (String × Value), cloneValObj l = l
  | [] => rfl
  | (k, v) :: ps => by rw [cloneValObj, cloneVal_eq v, cloneValObj_eq ps]

end

/-- `deepClone` (`src/bigcode.ts` line 94–96) applied to a whole row. -/
def cloneRow (r : TableRow) : TableRow :=
  cloneValObj r

/-- `deepClone` of a row is the row itself (as a value). -/
theorem cloneRow_eq (r : TableRow) : cloneRow r = r :=
  cloneValObj_eq r

/-! ## JavaScript `Map` operations

`InMemoryTable` keeps its state in `private rows: Map<ID, T>`.  A JS `Map`
iterates in insertion order: `set` on an existing key overwrites the value but
keeps the key's original position, `set` on a new key appends, and `delete`
removes the entry.  We model it as an association list in iteration order. -/

section JsMap

variable {κ : Type} {β : Type} [DecidableEq κ]

/-- `Map.prototype.get`. -/
def jsMapGet : List (κ × β) → κ → Option β
  | [], _ => none
  | (k', v) :: rest, k => if k' = k then some v else jsMapGet rest k

/-- `Map.prototype.set`: overwrite in place, or append a new entry. -/
def jsMapSet : List (κ × β) → κ → β → List (κ × β)
  | [], k, v => [(k, v)]
  | (k', v') :: rest, k, v =>
    if k' = k then (k, v) :: rest else (k', v') :: jsMapSet rest k v

/-- `Map.prototype.delete`: remove the entry if present, and report whether a
removal occurred. -/
def jsMapDelete : List (κ × β) → κ → Bool × List (κ × β)
  | [], _ => (false, [])
  | (k', v') :: rest, k =>
    if k' = k then (true, rest)
    else
      let r := jsMapDelete rest k
      (r.1, (k', v') :: r.2)

theorem jsMapGet_jsMapSet_self (l : List (κ × β)) (k : κ) (v : β) :
    jsMapGet (jsMapSet l k v) k = some v := by
  induction l with
  | nil => simp [jsMapGet, jsMapSet]
  | cons p rest ih =>
    obtain ⟨k', v'⟩ := p
    by_cases h : k' = k <;> simp [jsMapGet, jsMapSet, h, ih]

theorem jsMapGet_jsMapSet_ne (l : List (κ × β)) (k k' : κ) (v : β) (h : k ≠ k') :
    jsMapGet (jsMapSet l k v) k' = jsMapGet l k' := by
  induction l with
  | nil => simp [jsMapGet, jsMapSet, h]
  | cons p rest ih =>
    obtain ⟨k₀, v₀⟩ := p
    by_cases h₀ : k₀ = k <;> simp [jsMapGet, jsMapSet, h₀, h, ih]

theorem mem_jsMapSet (l : List (κ × β)) (k : κ) (v : β) :
    ∀ p ∈ jsMapSet l k v, p ∈ l ∨ p = (k, v) := by
  induction l with
  | nil => simp [jsMapSet]
  | cons q rest ih =>
    obtain ⟨k₀, v₀⟩ := q
    by_cases h₀ : k₀ = k
    · simp only [jsMapSet, if_pos h₀]
      intro p hp
      rcases List.mem_cons.mp hp with h | h
      · exact .inr h
      · exact .inl (List.mem_cons_of_mem _ h)
    · simp only [jsMapSet, if_neg h₀]
      intro p hp
      rcases List.mem_cons.mp hp with h | h
      · exact .inl (h ▸ List.mem_cons_self _ _)
      · rcases ih p h with h' | h'
        · exact .inl (List.mem_cons_of_mem _ h')
        · exact .inr h'

theorem keys_jsMapSet (l : List (κ × β)) (k : κ) (v : β) :
    (jsMapSet l k v).map Prod.fst = l.map Prod.fst
      ∨ (jsMapSet l k v).map Prod.fst = l.map Prod.fst ++ [k] := by
  induction l with
  | nil => simp [jsMapSet]
  | cons q rest ih =>
    obtain ⟨k₀, v₀⟩ := q
    by_cases h₀ : k₀ = k
    · simp [jsMapSet, h₀]
    · rcases ih with h | h
      · exact .inl (by simp [jsMapSet, h₀, h])
      · exact .inr (by simp [jsMapSet, h₀, h])

theorem keys_jsMapSet_of_mem (l : List (κ × β)) (k : κ) (v : β)
    (hk : jsMapGet l k ≠ none) :
    (jsMapSet l k v).map Prod.fst = l.map Prod.fst := by
  induction l with
  | nil => simp [jsMapGet] at hk
  | cons q rest ih =>
    obtain ⟨k₀, v₀⟩ := q
    by_cases h₀ : k₀ = k
    · simp [jsMapSet, h₀]
    · simp only [jsMapGet, if_neg h₀] at hk
      simp [jsMapSet, h₀, ih hk]

theorem jsMapGet_eq_none_iff (l : List (κ × β)) (k : κ) :
    jsMapGet l k = none ↔ k ∉ l.map Prod.fst := by
  induction l with
  | nil => simp [jsMapGet]
  | cons q rest ih =>
    obtain ⟨k₀, v₀⟩ := q
    by_cases h₀ : k₀ = k
    · subst h₀; simp [jsMapGet]
    · simp only [jsMapGet, if_neg h₀, List.map_cons, ih]
      constructor
      · intro h hmem
        rcases List.mem_cons.mp hmem with h' | h'
        · exact h₀ h'.symm
        · exact h h'
      · intro h hmem
        exact h (List.mem_cons_of_mem _ hmem)

theorem keys_nodup_jsMapSet (l : List (κ × β)) (k : κ) (v : β)
    (h : (l.map Prod.fst).Nodup) : ((jsMapSet l k v).map Prod.fst).Nodup := by
  rcases keys_jsMapSet l k v with heq | heq
  · rw [heq]; exact h
  · rw [heq]
    have hk : k ∉ l.map Prod.fst := by
      intro hmem
      -- a key already present would have been overwritten in place
      have hget : jsMapGet l k ≠ none := fun hc =>
        ((jsMapGet_eq_none_iff l k).mp hc) hmem
      have hkeys := keys_jsMapSet_of_mem l k v hget
      rw [hkeys] at heq
      have := congrArg List.length heq
      simp at this
    simp only [List.nodup_append]
    exact ⟨h, List.nodup_singleton k, by simpa using hk⟩

theorem jsMapDelete_not_mem (l : List (κ × β)) (k : κ) (h : jsMapGet l k = none) :
    jsMapDelete l k = (false, l) := by
  induction l with
  | nil => simp [jsMapDelete]
  | cons q rest ih =>
    obtain ⟨k₀, v₀⟩ := q
    by_cases h₀ : k₀ = k
    · simp [jsMapGet, h₀] at h
    · simp only [jsMapGet, if_neg h₀] at h
      simp [jsMapDelete, h₀, ih h]

theorem jsMapDelete_mem (l : List (κ × β)) (k : κ) (h : jsMapGet l k ≠ none) :
    (jsMapDelete l k).1 = true ∧ (jsMapDelete l k).2.length + 1 = l.length := by
  induction l with
  | nil => simp [jsMapGet] at h
  | cons q rest ih
  => obtain ⟨k₀, v₀⟩ := q
     by_cases h₀ : k₀ = k
     · simp [jsMapDelete, h₀]
     · simp only [jsMapGet, if_neg h₀] at h
       obtain ⟨h₁, h₂⟩ := ih h
       refine ⟨by simp [jsMapDelete, h₀, h₁], ?_⟩
       simp only [jsMapDelete, if_neg h₀, List.length_cons]
       omega

theorem jsMapGet_jsMapDelete (l : List (κ × β)) (k : κ)
    (hnd : (l.map Prod.fst).Nodup) : jsMapGet (jsMapDelete l k).2 k = none := by
  induction l with
  | nil => simp [jsMapDelete, jsMapGet]
  | cons q rest ih =>
    obtain ⟨k₀, v₀⟩ := q
    simp only [List.map_cons, List.nodup_cons] at hnd
    by_cases h₀ : k₀ = k
    · subst h₀
      simp only [jsMapDelete, if_pos rfl]
      rw [jsMapGet_eq_none_iff]
      exact hnd.1
    · simp [jsMapDelete, jsMapGet, h₀, ih hnd.2]

theorem keys_jsMapDelete_sublist (l : List (κ × β)) (k : κ) :
    List.Sublist ((jsMapDelete l k).2.map Prod.fst) (l.map Prod.fst) := by
  induction l with
  | nil => simp [jsMapDelete]
  | cons q rest ih =>
    obtain ⟨k₀, v₀⟩ := q
    by_cases h₀ : k₀ = k
    · simp only [jsMapDelete, if_pos h₀, List.map_cons]
      exact List.sublist_cons_self _ _
    · simp only [jsMapDelete, if_neg h₀, List.map_cons]
      exact ih.cons₂ _

theorem mem_jsMapDelete (l : List (κ × β)) (k : κ) :
    ∀ p ∈ (jsMapDelete l k).2, p ∈ l := by
  induction l with
  | nil => simp [jsMapDelete]
  | cons q rest ih =>
    obtain ⟨k₀, v₀⟩ := q
    intro p hp
    by_cases h₀ : k₀ = k
    · simp only [jsMapDelete, if_pos h₀] at hp
      exact List.mem_cons_of_mem _ hp
    · simp only [jsMapDelete, if_neg h₀] at hp
      rcases List.mem_cons.mp hp with rfl | hmem
      · exact List.mem_cons_self _ _
      · exact List.mem_cons_of_mem _ (ih p hmem)

theorem jsMapGet_mem (l : List (κ × β)) (k : κ) (v : β)
    (h : jsMapGet l k = some v) : (k, v) ∈ l := by
  induction l with
  | nil => simp [jsMapGet] at h
  | cons q rest ih =>
    obtain ⟨k₀, v₀⟩ := q
    by_cases h₀ : k₀ = k
    · subst h₀
      simp only [jsMapGet, if_true, eq_self_iff_true] at h
      rw [Option.some_inj] at h
      subst h
      exact List.mem_cons_self _ _
    · simp only [jsMapGet, if_neg h₀] at h
      exact List.mem_cons_of_mem _ (ih h)

end JsMap

/-! ## JavaScript object (row) operations -/

/-- Property access `row[k]`: `none` models the JS value `undefined` for a
missing property. -/
def getField : TableRow → String → Option Value
  | [], _ => none
  | (k', v) :: rest, k => if k' = k then some v else getField rest k

/-- Property assignment, as performed field-by-field by an object spread:
assigning to an existing key overwrites its value in place (the key keeps its
original position), assigning to a new key appends it. -/
def setField : TableRow → String → Value → TableRow
  | [], k, v => [(k, v)]
  | (k', v') :: rest, k, v =>
    if k' = k then (k, v) :: rest else (k', v') :: setField rest k v

/-- The object spread `{...existing, ...patch}` (minus an already-spread
prefix): every property of `patch`, in order, is assigned over `existing`. -/
def mergeRows (existing patch : TableRow) : TableRow :=
  patch.foldl (fun acc p => setField acc p.1 p.2) existing

theorem getField_setField_self (r : TableRow) (k : String) (v : Value) :
    getField (setField r k v) k = some v := by
  induction r with
  | nil => simp [getField, setField]
  | cons p rest ih =>
    obtain ⟨k', v'⟩ := p
    by_cases h : k' = k <;> simp [getField, setField, h, ih]

theorem getField_setField_ne (r : TableRow) (k k' : String) (v : Value)
    (h : k ≠ k') : getField (setField r k v) k' = getField r k' := by
  induction r with
  | nil => simp [getField, setField, h]
  | cons p rest ih =>
    obtain ⟨k₀, v₀⟩ := p
    by_cases h₀ : k₀ = k <;> simp [getField, setField, h₀, h, ih]

theorem setField_of_getField_none (r : TableRow) (k : String) (v : Value)
    (h : getField r k = none) : setField r k v = r ++ [(k, v)] := by
  induction r with
  | nil => simp [setField]
  | cons p rest ih =>
    obtain ⟨k₀, v₀⟩ := p
    by_cases h₀ : k₀ = k
    · simp [getField, h₀] at h
    · simp only [getField, if_neg h₀] at h
      simp [setField, h₀, ih h]

/-- The `id` property of a row, when it carries one.  The TypeScript signature
`insert(row: T & { id?: ID })` with `ID = string` constrains a present `id` to
be a string; a row without a string `id` is treated as carrying none. -/
def rowId (row : TableRow) : Option String :=
  match getField row "id" with
  | some (.vstr s) => some s
  | _ => none

/-! ## Strict equality, comparison, filtering -/

/-- JavaScript strict equality `===` as used by `query` (`src/bigcode.ts`
lines 183–194 and 199–204).  Both operands there always come from freshly
`deepClone`d rows (or from the caller's filter object), so an object or array
operand is never reference-identical to the other side: `===` on them is
`false` in every reachable comparison, which the last clauses mirror. -/
def jsStrictEq : Value → Value → Bool
  | .vnull, .vnull => true
  | .vbool a, .vbool b => a == b
  | .vnum a, .vnum b => a == b
  | .vstr a, .vstr b => a == b
  | _, _ => false

/-- `===` lifted to possibly-`undefined` operands (`undefined === undefined`
is `true`). -/
def strictEqO : Option Value → Option Value → Bool
  | none, none => true
  | some a, some b => jsStrictEq a b
  | _, _ => false

/-- JavaScript `>` on the values the sort comparator compares
(`aVal > bVal`, line 203).  Number–number and string–string comparisons are
the natural orders (strings compare lexicographically); every other
combination is modelled as incomparable (`false`), matching the `NaN`-valued
coercions such comparisons produce for the non-numeric data in scope.
(`ToNumber`-style cross-type coercions, e.g. number against numeric string,
are outside the model.) -/
def jsGtO : Option Value → Option Value → Bool
  | some (.vnum m), some (.vnum n) => n < m
  | some (.vstr s), some (.vstr t) => t < s
  | _, _ => false

/-- `sortOrder: "asc" | "desc"`. -/
inductive SortOrder where
  | asc
  | desc
  deriving DecidableEq, Repr

/-- The comparator passed to `arr.sort` in `query` (`src/bigcode.ts` lines
199–205): `0` on strictly equal field values, otherwise `1`/`-1` by `>`, with
`"desc"` negating the result. -/
def jsCmp (k : String) (ord : Option SortOrder) (a b : TableRow) : Int :=
  let aVal := getField a k
  let bVal := getField b k
  if strictEqO aVal bVal then 0
  else
    let cmp : Int := if jsGtO aVal bVal then 1 else -1
    if ord = some .desc then -cmp else cmp

/-- "Sorts no later than": the comparator reports `a` not greater than `b`. -/
def sortLe (k : String) (ord : Option SortOrder) (a b : TableRow) : Bool :=
  jsCmp k ord a b ≤ 0

/-- One entry of `opts.filter` (`filter?: Record<string, any>`): a `RegExp`
(modelled by its `test` predicate on strings), a predicate function (which may
throw, modelled by `Except Unit`), or a plain value. -/
inductive FilterVal where
  | regex (test : String → Bool)
  | pred (f : Option Value → Except Unit Bool)
  | val (v : Value)

/-- A filter object: fields in property order. -/
abbrev Filter := List (String × FilterVal)

/-- The `try { return expected(actual) } catch { return false }` of
`src/bigcode.ts` lines 188–192: a predicate evaluation failure is caught and
treated as a non-match. -/
def predCatch (p : Option Value → Except Unit Bool) (a : Option Value) : Bool :=
  match p a with
  | .ok b => b
  | .error _ => false

/-- One conjunct of the filter callback (`src/bigcode.ts` lines 181–194):
`RegExp` test on string actuals, predicate call guarded by `try`/`catch`,
otherwise strict equality.  A `RegExp` against a non-string actual falls
through to `actual === expected`, which is `false` (distinct references). -/
def matchOne (expected : FilterVal) (actual : Option Value) : Bool :=
  match expected, actual with
  | .regex test, some (.vstr s) => test s
  | .regex _, _ => false
  | .pred p, a => predCatch p a
  | .val v, some a => jsStrictEq a v
  | .val _, none => false

/-- The filter callback: every specified field must match
(`Object.keys(f).every(...)`, line 181). -/
def rowMatches (f : Filter) (row : TableRow) : Bool :=
  f.all fun p => matchOne p.2 (getField row p.1)

/-- `arr.slice(b, e)` for non-negative `b ≤ e`: elements with index in
`[b, min e (length))`. -/
def jsSlice {α : Type} (l : List α) (b e : Nat) : List α :=
  (l.take e).drop b

/-! ## Stable sort

`arr.sort(comparator)` (ECMAScript 2019 onward) is required to be stable: two
elements the comparator does not separate keep their relative order.  We model
it as an insertion sort, which is stable; for a consistent comparator (which
is the regime the specification's sorting claims address) every stable
comparison sort computes the same list. -/

/-- Insert `x` into `l`, before the first element it sorts no later than. -/
def sortInsert {α : Type} (le : α → α → Bool) (x : α) : List α → List α
  | [] => [x]
  | y :: ys => if le x y then x :: y :: ys else y :: sortInsert le x ys

/-- Stable sort by the comparator-induced `le`. -/
def sortStable {α : Type} (le : α → α → Bool) : List α → List α
  | [] => []
  | x :: xs => sortInsert le x (sortStable le xs)

section SortLemmas

variable {α : Type} (le : α → α → Bool)

theorem mem_sortInsert (x : α) (s : List α) :
    ∀ y, y ∈ sortInsert le x s ↔ y = x ∨ y ∈ s := by
  induction s with
  | nil => simp [sortInsert]
  | cons z zs ih =>
    intro y
    by_cases h : le x z
    · simp [sortInsert, h]
    · simp only [sortInsert, if_neg h, List.mem_cons, ih y]
      tauto

theorem sortInsert_perm (x : α) (s : List α) :
    List.Perm (sortInsert le x s) (x :: s) := by
  induction s with
  | nil => simp [sortInsert]
  | cons z zs ih =>
    by_cases h : le x z
    · simp [sortInsert, h]
    · simp only [sortInsert, if_neg h]
      exact (ih.cons z).trans (List.Perm.swap x z zs)

theorem sortStable_perm (l : List α) : List.Perm (sortStable le l) l := by
  induction l with
  | nil => simp [sortStable]
  | cons x xs ih =>
    exact (sortInsert_perm le x (sortStable le xs)).trans (ih.cons x)

theorem mem_sortStable (l : List α) : ∀ y, y ∈ sortStable le l ↔ y ∈ l :=
  fun _ => (sortStable_perm le l).mem_iff

theorem filter_sortInsert_pos (p : α → Bool) (x : α) (s : List α) (hx : p x)
    (hle : ∀ z ∈ s, p z → le x z) :
    (sortInsert le x s).filter p = x :: s.filter p := by
  induction s with
  | nil => simp [sortInsert, hx]
  | cons y ys ih =>
    by_cases h : le x y
    · simp [sortInsert, h, hx]
    · by_cases hy : p y
      · exact absurd (hle y (List.mem_cons_self _ _) hy) h
      · simp only [sortInsert, if_neg h]
        rw [List.filter_cons_of_neg (by simpa using hy),
          List.filter_cons_of_neg (by simpa using hy)]
        exact ih fun z hz => hle z (List.mem_cons_of_mem _ hz)

theorem filter_sortInsert_neg (p : α → Bool) (x : α) (s : List α)
    (hx : ¬ p x) : (sortInsert le x s).filter p = s.filter p := by
  induction s with
  | nil => simp [sortInsert, hx]
  | cons y ys ih =>
    by_cases h : le x y
    · simp [sortInsert, h, hx]
    · by_cases hy : p y
      · simp only [sortInsert, if_neg h]
        rw [List.filter_cons_of_pos (by simpa using hy),
          List.filter_cons_of_pos (by simpa using hy), ih]
      · simp only [sortInsert, if_neg h]
        rw [List.filter_cons_of_neg (by simpa using hy),
          List.filter_cons_of_neg (by simpa using hy), ih]

/-- Stability of the stable sort: the elements satisfying `p` — any class of
mutually tied elements — appear in the sorted list exactly as they appeared
in the input. -/
theorem filter_sortStable (p : α → Bool) (l : List α)
    (h : ∀ x ∈ l, ∀ z ∈ l, p x → p z → le x z) :
    (sortStable le l).filter p = l.filter p := by
  induction l with
  | nil => simp [sortStable]
  | cons x xs ih =>
    have hrest : ∀ y ∈ xs, ∀ z ∈ xs, p y → p z → le y z := fun y hy z hz =>
      h y (List.mem_cons_of_mem _ hy) z (List.mem_cons_of_mem _ hz)
    by_cases hx : p x
    · rw [show sortStable le (x :: xs) = sortInsert le x (sortStable le xs) from rfl,
        filter_sortInsert_pos le p x _ hx, List.filter_cons_of_pos (by simpa using hx),
        ih hrest]
      intro z hz hp
      exact h x (List.mem_cons_self _ _) z
        (List.mem_cons_of_mem _ ((mem_sortStable le xs z).mp hz)) hx hp
    · rw [show sortStable le (x :: xs) = sortInsert le x (sortStable le xs) from rfl,
        filter_sortInsert_neg le p x _ hx, List.filter_cons_of_neg (by simpa using hx),
        ih hrest]

theorem pairwise_sortInsert (x : α) (s : List α)
    (hs : s.Pairwise fun a b => le a b = true)
    (htot : ∀ y ∈ s, le x y ∨ le y x)
    (htrans : ∀ y ∈ s, ∀ z ∈ s, le x y = true → le y z = true → le x z = true) :
    (sortInsert le x s).Pairwise fun a b => le a b = true := by
  induction s with
  | nil => simp [sortInsert]
  | cons y ys ih =>
    rw [List.pairwise_cons] at hs
    by_cases h : le x y
    · simp only [sortInsert, if_pos h]
      rw [List.pairwise_cons]
      refine ⟨?_, List.pairwise_cons.mpr hs⟩
      intro z hz
      rcases List.mem_cons.mp hz with rfl | hmem
      · exact h
      · exact htrans y (List.mem_cons_self _ _) z (List.mem_cons_of_mem _ hmem) h
          (hs.1 z hmem)
    · simp only [sortInsert, if_neg h]
      rw [List.pairwise_cons]
      constructor
      · intro z hz
        rcases (mem_sortInsert le x ys z).mp hz with rfl | hmem
        · rcases htot y (List.mem_cons_self _ _) with h' | h'
          · exact absurd h' h
          · exact h'
        · exact hs.1 z hmem
      · refine ih hs.2 (fun y' hy' => htot y' (List.mem_cons_of_mem _ hy')) ?_
        intro y' hy' z hz
        exact htrans y' (List.mem_cons_of_mem _ hy') z (List.mem_cons_of_mem _ hz)

/-- Sortedness of the stable sort, given totality and transitivity of the
comparator on the elements actually being sorted. -/
theorem pairwise_sortStable (l : List α)
    (htot : ∀ a ∈ l, ∀ b ∈ l, le a b ∨ le b a)
    (htrans : ∀ a ∈ l, ∀ b ∈ l, ∀ c ∈ l,
      le a b = true → le b c = true → le a c = true) :
    (sortStable le l).Pairwise fun a b => le a b = true := by
  induction l with
  | nil => simp [sortStable]
  | cons x xs ih =>
    show (sortInsert le x (sortStable le xs)).Pairwise _
    have hmem : ∀ y ∈ sortStable le xs, y ∈ xs := fun y hy =>
      (mem_sortStable le xs y).mp hy
    refine pairwise_sortInsert le x _ ?_ ?_ ?_
    · exact ih (fun a ha b hb => htot a (List.mem_cons_of_mem _ ha) b (List.mem_cons_of_mem _ hb))
        (fun a ha b hb c hc => htrans a (List.mem_cons_of_mem _ ha) b
          (List.mem_cons_of_mem _ hb) c (List.mem_cons_of_mem _ hc))
    · intro y hy
      exact htot x (List.mem_cons_self _ _) y (List.mem_cons_of_mem _ (hmem y hy))
    · intro y hy z hz
      exact htrans x (List.mem_cons_self _ _) y (List.mem_cons_of_mem _ (hmem y hy))
        z (List.mem_cons_of_mem _ (hmem z hz))

end SortLemmas

/-! ## Properties of the comparator -/

theorem jsStrictEq_eq (a b : Value) : jsStrictEq a b = true → a = b := by
  cases a <;> cases b <;> simp [jsStrictEq]

theorem jsStrictEq_refl_of (a b : Value) (h : jsStrictEq a b = true) :
    jsStrictEq a a = true := by
  cases a <;> cases b <;> simp_all [jsStrictEq]

theorem strictEqO_eq (x y : Option Value) : strictEqO x y = true → x = y := by
  cases x <;> cases y <;> simp [strictEqO]
  exact jsStrictEq_eq _ _

theorem strictEqO_refl_of (x y : Option Value) (h : strictEqO x y = true) :
    strictEqO x x = true := by
  cases x <;> cases y <;> simp_all [strictEqO]
  exact jsStrictEq_refl_of _ _ h

/-- Two rows whose sort field is strictly equal to the same value are a tie
for the comparator, whichever sort order is in force. -/
theorem sortLe_of_ties (k : String) (ord : Option SortOrder) (v : Option Value)
    (a b : TableRow) (ha : strictEqO (getField a k) v = true)
    (hb : strictEqO (getField b k) v = true) : sortLe k ord a b = true := by
  have hav := strictEqO_eq _ _ ha
  have hbv := strictEqO_eq _ _ hb
  have htie : strictEqO (getField a k) (getField b k) = true := by
    rw [hav, hbv]
    exact strictEqO_refl_of _ _ (hav ▸ ha)
  unfold sortLe jsCmp
  dsimp only
  rw [htie]
  simp

/-- The sort field holds a number. -/
def isNumKey : Option Value → Bool
  | some (.vnum _) => true
  | _ => false

/-- The sort field holds a string. -/
def isStrKey : Option Value → Bool
  | some (.vstr _) => true
  | _ => false

theorem isNumKey_iff (x : Option Value) :
    isNumKey x = true ↔ ∃ n : Int, x = some (.vnum n) := by
  cases x with
  | none => simp [isNumKey]
  | some v => cases v <;> simp [isNumKey]

theorem isStrKey_iff (x : Option Value) :
    isStrKey x = true ↔ ∃ s : String, x = some (.vstr s) := by
  cases x with
  | none => simp [isStrKey]
  | some v => cases v <;> simp [isStrKey]

/-- The sort field has one orderable type across a whole list: all numbers or
all strings.  This is the regime in which the source's comparator behaves as
a natural ordering ("sort by that field's natural ordering"); mixed-type
fields compare through `NaN` in JS and admit no order at all. -/
def KeysComparable (k : String) (l : List TableRow) : Prop :=
  (∀ r ∈ l, isNumKey (getField r k) = true)
    ∨ (∀ r ∈ l, isStrKey (getField r k) = true)

instance (k : String) (l : List TableRow) : Decidable (KeysComparable k l) :=
  inferInstanceAs (Decidable (_ ∨ _))

theorem sortLe_num (k : String) (ord : Option SortOrder) (a b : TableRow)
    (m n : Int) (ha : getField a k = some (.vnum m))
    (hb : getField b k = some (.vnum n)) :
    sortLe k ord a b = true ↔ (if ord = some .desc then n ≤ m else m ≤ n) := by
  unfold sortLe jsCmp
  rw [ha, hb]
  dsimp only
  by_cases hmn : m = n
  · subst hmn
    simp [strictEqO, jsStrictEq]
  · have : strictEqO (some (.vnum m)) (some (.vnum n)) = false := by
      simp [strictEqO, jsStrictEq, hmn]
    rw [this]
    simp only [Bool.false_eq_true, if_false, strictEqO, jsGtO]
    by_cases hord : ord = some .desc <;> by_cases hlt : n < m <;>
      simp [hord, hlt] <;> omega

theorem sortLe_str (k : String) (ord : Option SortOrder) (a b : TableRow)
    (s t : String) (ha : getField a k = some (.vstr s))
    (hb : getField b k = some (.vstr t)) :
    sortLe k ord a b = true ↔ (if ord = some .desc then t ≤ s else s ≤ t) := by
  unfold sortLe jsCmp
  rw [ha, hb]
  dsimp only
  by_cases hst : s = t
  · subst hst
    simp [strictEqO, jsStrictEq]
  · have hne : strictEqO (some (.vstr s)) (some (.vstr t)) = false := by
      simp [strictEqO, jsStrictEq, hst]
    rw [hne]
    by_cases hlt : t < s
    · have hg : jsGtO (some (.vstr s)) (some (.vstr t)) = true := by
        simp [jsGtO, hlt]
      rw [hg]
      by_cases hord : ord = some .desc
      · rw [if_pos hord, if_pos hord]
        simp [le_of_lt hlt]
      · rw [if_neg hord, if_neg hord]
        simp [not_le.mpr hlt]
    · have hg : jsGtO (some (.vstr s)) (some (.vstr t)) = false := by
        simp [jsGtO, hlt]
      rw [hg]
      have hslt : s < t := lt_of_le_of_ne (le_of_not_lt hlt) hst
      by_cases hord : ord = some .desc
      · rw [if_pos hord, if_pos hord]
        simp [not_le.mpr hslt]
      · rw [if_neg hord, if_neg hord]
        simp [le_of_lt hslt]

theorem sortLe_total_of_comparable (k : String) (ord : Option SortOrder)
    (l : List TableRow) (h : KeysComparable k l) :
    ∀ a ∈ l, ∀ b ∈ l, sortLe k ord a b = true ∨ sortLe k ord b a = true := by
  intro a ha b hb
  rcases h with hnum | hstr
  · obtain ⟨m, hm⟩ := (isNumKey_iff _).mp (hnum a ha)
    obtain ⟨n, hn⟩ := (isNumKey_iff _).mp (hnum b hb)
    rw [sortLe_num k ord a b m n hm hn, sortLe_num k ord b a n m hn hm]
    by_cases hord : ord = some .desc <;> simp [hord] <;> omega
  · obtain ⟨s, hs⟩ := (isStrKey_iff _).mp (hstr a ha)
    obtain ⟨t, ht⟩ := (isStrKey_iff _).mp (hstr b hb)
    rw [sortLe_str k ord a b s t hs ht, sortLe_str k ord b a t s ht hs]
    by_cases hord : ord = some .desc <;> simp [hord] <;> exact le_total _ _

theorem sortLe_trans_of_comparable (k : String) (ord : Option SortOrder)
    (l : List TableRow) (h : KeysComparable k l) :
    ∀ a ∈ l, ∀ b ∈ l, ∀ c ∈ l,
      sortLe k ord a b = true → sortLe k ord b c = true →
      sortLe k ord a c = true := by
  intro a ha b hb c hc hab hbc
  rcases h with hnum | hstr
  · obtain ⟨m, hm⟩ := (isNumKey_iff _).mp (hnum a ha)
    obtain ⟨n, hn⟩ := (isNumKey_iff _).mp (hnum b hb)
    obtain ⟨o, ho⟩ := (isNumKey_iff _).mp (hnum c hc)
    rw [sortLe_num k ord a b m n hm hn] at hab
    rw [sortLe_num k ord b c n o hn ho] at hbc
    rw [sortLe_num k ord a c m o hm ho]
    by_cases hord : ord = some .desc <;> simp [hord] at hab hbc ⊢ <;> omega
  · obtain ⟨s, hs⟩ := (isStrKey_iff _).mp (hstr a ha)
    obtain ⟨t, ht⟩ := (isStrKey_iff _).mp (hstr b hb)
    obtain ⟨u, hu⟩ := (isStrKey_iff _).mp (hstr c hc)
    rw [sortLe_str k ord a b s t hs ht] at hab
    rw [sortLe_str k ord b c t u ht hu] at hbc
    rw [sortLe_str k ord a c s u hs hu]
    by_cases hord : ord = some .desc <;> simp [hord] at hab hbc ⊢
    · exact le_trans hbc hab
    · exact le_trans hab hbc

/-! ## The store: `class InMemoryTable<T>` (`src/bigcode.ts` lines 149–215) -/

/-- `QueryOptions` (`src/bigcode.ts` lines 64–70).  `offset` and `limit` are
modelled as natural numbers (the claims in scope use non-negative integral
counts; fractional or negative `number` arguments are outside the model). -/
structure QueryOptions where
  limit : Option Nat
  offset : Option Nat
  sortBy : Option String
  sortOrder : Option SortOrder
  filter : Option Filter

/-- The store state: `private rows: Map<ID, T>` in insertion order. -/
structure InMemoryTable where
  rows : List (String × TableRow)
  deriving DecidableEq

namespace InMemoryTable

/-- `new InMemoryTable()`. -/
def empty : InMemoryTable := ⟨[]⟩

/-- `insert(row)` (`src/bigcode.ts` lines 152–157).  `gen` is the id `makeId()`
returns for this call; it is consumed only when the row carries no explicit
id (`row.id ?? makeId()`).  Returns the `deepClone` of what was stored,
together with the new store state. -/
def insert (t : InMemoryTable) (row : TableRow) (gen : String) :
    TableRow × InMemoryTable :=
  let id := (rowId row).getD gen
  let toInsert := setField row "id" (.vstr id)
  (cloneRow toInsert, ⟨jsMapSet t.rows id toInsert⟩)

/-- `get(id)` (`src/bigcode.ts` lines 159–162): a `deepClone` of the stored
row, or `undefined`. -/
def get (t : InMemoryTable) (id : String) : Option TableRow :=
  (jsMapGet t.rows id).map cloneRow

/-- `update(id, patch)` (`src/bigcode.ts` lines 164–170): absent id returns
`undefined` and leaves the store as it was; otherwise `{...existing, ...patch}`
is stored back and a `deepClone` of it returned. -/
def update (t : InMemoryTable) (id : String) (patch : TableRow) :
    Option TableRow × InMemoryTable :=
  match jsMapGet t.rows id with
  | none => (none, t)
  | some existing =>
    let updated := mergeRows existing patch
    (some (cloneRow updated), ⟨jsMapSet t.rows id updated⟩)

/-- `delete(id)` (`src/bigcode.ts` lines 172–174): `Map.prototype.delete`. -/
def delete (t : InMemoryTable) (id : String) : Bool × InMemoryTable :=
  let r := jsMapDelete t.rows id
  (r.1, ⟨r.2⟩)

/-- `query(opts)` (`src/bigcode.ts` lines 176–210): deep-copied snapshot,
then filter, then stable sort, then the `slice(offset, offset + limit)`
pagination window.  The sort is guarded by the truthiness test
`if (opts.sortBy)` (line 198): a present empty string is falsy in JS, so
`sortBy: ""` skips the sort (`if k = ""` below).  The filter guard
`if (opts.filter)` (line 178) is plain presence — an object, even `{}`, is
always truthy — and `offset`/`limit` use `??`, which is nullish-coalescing,
not truthiness. -/
def query (t : InMemoryTable) (opts : QueryOptions) : List TableRow :=
  let arr := (t.rows.map Prod.snd).map cloneRow
  let arr := match opts.filter with
    | none => arr
    | some f => arr.filter (rowMatches f)
  let arr := match opts.sortBy with
    | none => arr
    | some k => if k = "" then arr else sortStable (sortLe k opts.sortOrder) arr
  let offset := opts.offset.getD 0
  let limit := opts.limit.getD arr.length
  jsSlice arr offset (offset + limit)

/-- `clear()` (`src/bigcode.ts` lines 212–214). -/
def clear (_ : InMemoryTable) : InMemoryTable := ⟨[]⟩

theorem update_of_absent (t : InMemoryTable) (id : String) (patch : TableRow)
    (h : jsMapGet t.rows id = none) : t.update id patch = (none, t) := by
  unfold update
  rw [h]

theorem update_of_present (t : InMemoryTable) (id : String) (patch : TableRow)
    (existing : TableRow) (h : jsMapGet t.rows id = some existing) :
    t.update id patch =
      (some (cloneRow (mergeRows existing patch)),
        ⟨jsMapSet t.rows id (mergeRows existing patch)⟩) := by
  unfold update
  rw [h]

end InMemoryTable

/-- `makeId(prefix)` (`src/bigcode.ts` lines 82–88), modelled on the shape of
its output: the prefix, two random four-hex-digit groups, a dash, and the
timestamp in base 36.  The randomness and clock are abstracted as the argument
strings. -/
def makeId (pre rand1 rand2 ts : String) : String :=
  pre ++ rand1 ++ rand2 ++ "-" ++ ts

/-- A generated id always contains the dash, hence is never empty. -/
theorem makeId_ne_empty (pre rand1 rand2 ts : String) :
    makeId pre rand1 rand2 ts ≠ "" := by
  intro h
  have := congrArg String.length h
  simp [makeId, String.length_append] at this
  exact absurd this.1.2 (by decide)

/-! ## Heap model for copy isolation

Aliasing claims ("mutating the object returned by `get` must not change what
a subsequent `get` returns") are about object identity, which the pure model
above cannot express.  This section re-embeds the same source methods with
JS object allocation made explicit: a heap maps addresses to row values, the
store's `Map` maps ids to the addresses of the stored row objects, every
object-producing expression of the source (`{...row, id}`, `{...existing,
...patch}`, `deepClone(x)`) allocates a fresh address, and mutating an object
is overwriting its address.  Rows are modelled as single-level objects here
(their field values are immutable data), which is exactly the depth at which
the returned objects of `insert`/`get`/`update`/`query` live. -/

/-- A heap of row objects: allocated cells and the next fresh address. -/
structure Heap where
  cells : List (Nat × TableRow)
  next : Nat
  deriving DecidableEq

/-- Allocate a new object. -/
def halloc (h : Heap) (r : TableRow) : Nat × Heap :=
  (h.next, ⟨jsMapSet h.cells h.next r, h.next + 1⟩)

/-- Read the object at an address. -/
def hread (h : Heap) (a : Nat) : Option TableRow :=
  jsMapGet h.cells a

/-- Mutate the object at an address. -/
def hwrite (h : Heap) (a : Nat) (r : TableRow) : Heap :=
  ⟨jsMapSet h.cells a r, h.next⟩

/-- The store state, by reference: `rows: Map<ID, T>` maps each id to the
address of the stored row object. -/
structure TableH where
  rows : List (String × Nat)
  deriving DecidableEq

/-- The addresses of the store's internal row objects. -/
def storeAddrs (t : TableH) : List Nat :=
  t.rows.map Prod.snd

/-- The row value a `get(id)` would observe (and deep-copy) right now. -/
def getValH (h : Heap) (t : TableH) (id : String) : Option TableRow :=
  match jsMapGet t.rows id with
  | none => none
  | some a => hread h a

/-- Heap/store well-formedness: every allocated address is below `next`, and
every address the store holds is allocated. -/
def HeapWF (h : Heap) (t : TableH) : Prop :=
  (∀ c ∈ h.cells, c.1 < h.next) ∧ (∀ q ∈ t.rows, (hread h q.2).isSome)

/-- `get(id)` (`src/bigcode.ts` lines 159–162) with allocation explicit:
`deepClone` builds the returned object at a fresh address. -/
def getH (h : Heap) (t : TableH) (id : String) : Option Nat × Heap :=
  match jsMapGet t.rows id with
  | none => (none, h)
  | some a =>
    match hread h a with
    | none => (none, h)
    | some r =>
      let al := halloc h (cloneRow r)
      (some al.1, al.2)

/-- `insert(row)` (`src/bigcode.ts` lines 152–157) with allocation explicit:
`{...row, id}` builds the stored object at one fresh address, and the
returned `deepClone` of it lives at another. -/
def insertH (h : Heap) (t : TableH) (row : TableRow) (gen : String) :
    Nat × TableH × Heap :=
  let id := (rowId row).getD gen
  let toInsert := setField row "id" (.vstr id)
  let a1h := halloc h toInsert
  let t' : TableH := ⟨jsMapSet t.rows id a1h.1⟩
  let a2h := halloc a1h.2 (cloneRow toInsert)
  (a2h.1, t', a2h.2)

/-- `update(id, patch)` (`src/bigcode.ts` lines 164–170) with allocation
explicit: `{...existing, ...patch}` is a new object, and the returned
`deepClone` of it another. -/
def updateH (h : Heap) (t : TableH) (id : String) (patch : TableRow) :
    Option Nat × TableH × Heap :=
  match jsMapGet t.rows id with
  | none => (none, t, h)
  | some a =>
    match hread h a with
    | none => (none, t, h)
    | some existing =>
      let updated := mergeRows existing patch
      let a1h := halloc h updated
      let t' : TableH := ⟨jsMapSet t.rows id a1h.1⟩
      let a2h := halloc a1h.2 (cloneRow updated)
      (some a2h.1, t', a2h.2)

/-- The deep-copied snapshot `Array.from(this.rows.values()).map(deepClone)`
(`src/bigcode.ts` line 177): each clone is a fresh object. -/
def snapshotH (h : Heap) : List (String × Nat) → List (Nat × TableRow) × Heap
  | [] => ([], h)
  | q :: rest =>
    match hread h q.2 with
    | none => snapshotH h rest
    | some r =>
      let ah := halloc h (cloneRow r)
      let rest' := snapshotH ah.2 rest
      ((ah.1, cloneRow r) :: rest'.1, rest'.2)

/-- `query(opts)` (`src/bigcode.ts` lines 176–210) with allocation explicit:
the returned records are (addresses of) the snapshot clones surviving the
filter/sort/slice pipeline.  As in the pure model, the sort guard
`if (opts.sortBy)` is a truthiness test, so a present empty-string `sortBy`
skips the sort. -/
def queryH (h : Heap) (t : TableH) (opts : QueryOptions) : List Nat × Heap :=
  let sn := snapshotH h t.rows
  let arr := sn.1
  let arr := match opts.filter with
    | none => arr
    | some f => arr.filter fun p => rowMatches f p.2
  let arr := match opts.sortBy with
    | none => arr
    | some k =>
      if k = "" then arr
      else sortStable (fun p q => sortLe k opts.sortOrder p.2 q.2) arr
  let offset := opts.offset.getD 0
  let limit := opts.limit.getD arr.length
  ((jsSlice arr offset (offset + limit)).map Prod.fst, sn.2)

/-- Heap growth: `next` does not decrease and already-allocated addresses read
the same. -/
def HExt (h h' : Heap) : Prop :=
  h.next ≤ h'.next ∧ ∀ a, a < h.next → jsMapGet h'.cells a = jsMapGet h.cells a

theorem hext_refl (h : Heap) : HExt h h :=
  ⟨le_refl _, fun _ _ => rfl⟩

theorem hext_trans {h₁ h₂ h₃ : Heap} (h12 : HExt h₁ h₂) (h23 : HExt h₂ h₃) :
    HExt h₁ h₃ :=
  ⟨le_trans h12.1 h23.1, fun a ha =>
    (h23.2 a (lt_of_lt_of_le ha h12.1)).trans (h12.2 a ha)⟩

/-- Allocation is heap growth, and keeps all cells below `next`. -/
theorem halloc_hext (h : Heap) (r : TableRow)
    (hb : ∀ c ∈ h.cells, c.1 < h.next) :
    HExt h (halloc h r).2 ∧ (∀ c ∈ (halloc h r).2.cells, c.1 < (halloc h r).2.next) := by
  constructor
  · refine ⟨Nat.le_succ _, fun a ha => ?_⟩
    exact jsMapGet_jsMapSet_ne _ _ _ _ (Nat.ne_of_gt ha)
  · intro c hc
    rcases mem_jsMapSet _ _ _ c hc with hmem | rfl
    · exact lt_trans (hb c hmem) (Nat.lt_succ_self _)
    · exact Nat.lt_succ_self _

/-- Under well-formedness, every address the store holds is below `next`. -/
theorem storeAddrs_lt (h : Heap) (t : TableH) (hwf : HeapWF h t) :
    ∀ b ∈ storeAddrs t, b < h.next := by
  intro b hb
  obtain ⟨q, hq, rfl⟩ := List.mem_map.mp hb
  have hsome := hwf.2 q hq
  cases hr : hread h q.2 with
  | none => rw [hr] at hsome; cases hsome
  | some r =>
    have := jsMapGet_mem _ _ _ hr
    exact hwf.1 _ this

/-- Heap growth is invisible to every `get`. -/
theorem getValH_of_hext (h h' : Heap) (t : TableH) (hwf : HeapWF h t)
    (he : HExt h h') : ∀ id, getValH h' t id = getValH h t id := by
  intro id
  unfold getValH
  cases hm : jsMapGet t.rows id with
  | none => rfl
  | some b =>
    have hb : b < h.next := by
      refine storeAddrs_lt h t hwf b ?_
      exact List.mem_map.mpr ⟨(id, b), jsMapGet_mem _ _ _ hm, rfl⟩
    exact he.2 b hb

/-- Frame property: writing through an address the store does not hold is
invisible to every `get`. -/
theorem getValH_hwrite (h : Heap) (t : TableH) (a : Nat) (r : TableRow)
    (ha : a ∉ storeAddrs t) : ∀ id, getValH (hwrite h a r) t id = getValH h t id := by
  intro id
  unfold getValH
  cases hm : jsMapGet t.rows id with
  | none => rfl
  | some b =>
    have hmem : b ∈ storeAddrs t :=
      List.mem_map.mpr ⟨(id, b), jsMapGet_mem _ _ _ hm, rfl⟩
    have hne : b ≠ a := fun hc => ha (hc ▸ hmem)
    exact jsMapGet_jsMapSet_ne _ _ _ _ (fun hc => hne hc.symm)

/-- The snapshot allocates only fresh addresses and only grows the heap. -/
theorem snapshotH_spec (rs : List (String × Nat)) :
    ∀ h : Heap, (∀ c ∈ h.cells, c.1 < h.next) →
      HExt h (snapshotH h rs).2
        ∧ (∀ c ∈ (snapshotH h rs).2.cells, c.1 < (snapshotH h rs).2.next)
        ∧ (∀ p ∈ (snapshotH h rs).1, h.next ≤ p.1) := by
  induction rs with
  | nil => exact fun h hb => ⟨hext_refl h, hb, by simp [snapshotH]⟩
  | cons q rest ih =>
    intro h hb
    unfold snapshotH
    cases hr : hread h q.2 with
    | none => exact ⟨(ih h hb).1, (ih h hb).2.1, fun p hp => (ih h hb).2.2 p hp⟩
    | some r =>
      obtain ⟨hex1, hb1⟩ := halloc_hext h (cloneRow r) hb
      obtain ⟨hex2, hb2, hfresh⟩ := ih (halloc h (cloneRow r)).2 hb1
      refine ⟨hext_trans hex1 hex2, hb2, ?_⟩
      intro p hp
      rcases List.mem_cons.mp hp with rfl | hmem
      · exact le_refl _
      · exact le_trans (Nat.le_succ _) (hfresh p hmem)

/-! ## Operation sequences

The state-changing operations of the store, for invariant claims quantified
over every sequence of operations.  `get` and `query` are read-only (they
never assign to `rows`), so a sequence of state-changing operations covers
every reachable state. -/

/-- One state-changing call on an `InMemoryTable`.  For `opInsert`, `gen` is
the id `makeId()` produces if the call needs one. -/
inductive Op where
  | opInsert (row : TableRow) (gen : String)
  | opUpdate (id : String) (patch : TableRow)
  | opDelete (id : String)
  | opClear

/-- Apply one operation to the store state. -/
def applyOp (t : InMemoryTable) : Op → InMemoryTable
  | .opInsert row gen => (t.insert row gen).2
  | .opUpdate id patch => (t.update id patch).2
  | .opDelete id => (t.delete id).2
  | .opClear => t.clear

/-- The state after running a sequence of operations from an empty store. -/
def runOps (ops : List Op) : InMemoryTable :=
  ops.foldl applyOp .empty

/-- The claimed store invariant: every stored row carries an `id` property
that is the string it is keyed under, that key is non-empty, and keys are
unique. -/
def StoreInv (t : InMemoryTable) : Prop :=
  (∀ p ∈ t.rows, getField p.2 "id" = some (.vstr p.1) ∧ p.1 ≠ "")
    ∧ (t.rows.map Prod.fst).Nodup

instance (t : InMemoryTable) : Decidable (StoreInv t) :=
  inferInstanceAs (Decidable (_ ∧ _))

instance (h : Heap) (t : TableH) : Decidable (HeapWF h t) :=
  inferInstanceAs (Decidable (_ ∧ _))

/-- The side condition under which one operation preserves the invariant: an
id handed to `insert` (explicit or generated) is non-empty, and an `update`
patch never rebinds the `id` property to anything but the target id. -/
def GoodOp : Op → Prop
  | .opInsert row gen => gen ≠ "" ∧ rowId row ≠ some ""
  | .opUpdate id patch => ∀ q ∈ patch, q.1 = "id" → q.2 = .vstr id
  | .opDelete _ => True
  | .opClear => True

instance : (op : Op) → Decidable (GoodOp op)
  | .opInsert _ _ => inferInstanceAs (Decidable (_ ∧ _))
  | .opUpdate _ patch => inferInstanceAs (Decidable (∀ q ∈ patch, _ → _))
  | .opDelete _ => inferInstanceAs (Decidable True)
  | .opClear => inferInstanceAs (Decidable True)

/-- All operations of a sequence satisfy their side condition. -/
def GoodOps (ops : List Op) : Prop :=
  ∀ op ∈ ops, GoodOp op

instance (ops : List Op) : Decidable (GoodOps ops) :=
  List.decidableBAll _ ops

/-- Merging a patch whose `id` assignments (if any) all write `vstr id` into a
row whose `id` is `vstr id` leaves the `id` property at `vstr id`. -/
theorem getField_mergeRows_id (existing patch : TableRow) (id : String)
    (hex : getField existing "id" = some (.vstr id))
    (hp : ∀ q ∈ patch, q.1 = "id" → q.2 = .vstr id) :
    getField (mergeRows existing patch) "id" = some (.vstr id) := by
  induction patch generalizing existing with
  | nil => simpa [mergeRows] using hex
  | cons q rest ih =>
    obtain ⟨k, v⟩ := q
    have hstep : getField (setField existing k v) "id" = some (.vstr id) := by
      by_cases hk : k = "id"
      · subst hk
        rw [getField_setField_self]
        have := hp ("id", v) (List.mem_cons_self _ _) rfl
        simp only at this
        rw [this]
      · rw [getField_setField_ne _ _ _ _ hk]
        exact hex
    have : mergeRows existing ((k, v) :: rest) = mergeRows (setField existing k v) rest := by
      simp [mergeRows]
    rw [this]
    exact ih _ hstep fun q hq => hp q (List.mem_cons_of_mem _ hq)

theorem storeInv_empty : StoreInv .empty := by
  constructor
  · intro p hp
    cases hp
  · simp [InMemoryTable.empty]

/-- Preservation of the invariant by a single well-behaved operation. -/
theorem storeInv_applyOp (t : InMemoryTable) (op : Op) (hinv : StoreInv t)
    (hop : GoodOp op) : StoreInv (applyOp t op) := by
  obtain ⟨hfields, hnodup⟩ := hinv
  cases op with
  | opInsert row gen =>
    obtain ⟨hgen, hrow⟩ := hop
    refine ⟨?_, ?_⟩
    · intro p hp
      rcases mem_jsMapSet _ _ _ p hp with hmem | rfl
      · exact hfields p hmem
      · refine ⟨getField_setField_self _ _ _, ?_⟩
        cases hid : rowId row with
        | none => simpa [hid] using hgen
        | some s =>
          have hs : s ≠ "" := fun hc => hrow (by rw [hid, hc])
          simpa [hid] using hs
    · exact keys_nodup_jsMapSet _ _ _ hnodup
  | opUpdate id patch =>
    show StoreInv (t.update id patch).2
    cases hget : jsMapGet t.rows id with
    | none => rw [InMemoryTable.update_of_absent t id patch hget]; exact ⟨hfields, hnodup⟩
    | some existing =>
      rw [InMemoryTable.update_of_present t id patch existing hget]
      have hexmem : (id, existing) ∈ t.rows := jsMapGet_mem _ _ _ hget
      refine ⟨?_, keys_nodup_jsMapSet _ _ _ hnodup⟩
      intro p hp
      rcases mem_jsMapSet _ _ _ p hp with hmem | rfl
      · exact hfields p hmem
      · have hex := (hfields _ hexmem).1
        exact ⟨getField_mergeRows_id existing patch id hex hop, (hfields _ hexmem).2⟩
  | opDelete id =>
    refine ⟨?_, ?_⟩
    · intro p hp
      exact hfields p (mem_jsMapDelete t.rows id p hp)
    · exact (keys_jsMapDelete_sublist t.rows id).nodup hnodup
  | opClear =>
    exact storeInv_empty

/-- Under the side conditions of `GoodOps`, every reachable state satisfies
the invariant. -/
theorem storeInv_runOps_from (t : InMemoryTable) (ops : List Op)
    (hinv : StoreInv t) (hops : GoodOps ops) : StoreInv (ops.foldl applyOp t) := by
  induction ops generalizing t with
  | nil => exact hinv
  | cons op rest ih =>
    simp only [List.foldl_cons]
    refine ih _ (storeInv_applyOp t op hinv (hops op (List.mem_cons_self _ _))) ?_
    intro op' hop'
    exact hops op' (List.mem_cons_of_mem _ hop')

/-- Every reachable state has pairwise-distinct keys (no side conditions
needed). -/
theorem keys_nodup_applyOp (t : InMemoryTable) (op : Op)
    (h : (t.rows.map Prod.fst).Nodup) :
    ((applyOp t op).rows.map Prod.fst).Nodup := by
  cases op with
  | opInsert row gen => exact keys_nodup_jsMapSet _ _ _ h
  | opUpdate id patch =>
    simp only [applyOp, InMemoryTable.update]
    cases hget : jsMapGet t.rows id with
    | none => exact h
    | some existing => exact keys_nodup_jsMapSet _ _ _ h
  | opDelete id => exact (keys_jsMapDelete_sublist t.rows id).nodup h
  | opClear => simp [applyOp, InMemoryTable.clear]

theorem keys_nodup_runOps (ops : List Op) :
    ((runOps ops).rows.map Prod.fst).Nodup := by
  suffices h : ∀ t : InMemoryTable, (t.rows.map Prod.fst).Nodup →
      ((ops.foldl applyOp t).rows.map Prod.fst).Nodup by
    exact h .empty (by simp [InMemoryTable.empty])
  induction ops with
  | nil => exact fun t ht => ht
  | cons op rest ih =>
    intro t ht
    exact ih _ (keys_nodup_applyOp t op ht)

/-! ## Supporting lemmas for the query pipeline -/

theorem cloneRows_eq (l : List TableRow) : l.map cloneRow = l := by
  induction l with
  | nil => rfl
  | cons r rest ih => simp [cloneRow_eq, ih]

/-- The filter/snapshot stage of `query`: the deep-copied snapshot, filtered
when a filter is given (`src/bigcode.ts` lines 177–197). -/
def queryPreSort (t : InMemoryTable) (f : Option Filter) : List TableRow :=
  let arr := (t.rows.map Prod.snd).map cloneRow
  match f with
  | none => arr
  | some f => arr.filter (rowMatches f)

/-- With `sortBy` present and non-empty (so that the truthiness guard
`if (opts.sortBy)` passes) and default pagination, `query` is exactly the
stable sort of the filter stage's output. -/
theorem query_sort_stage (t : InMemoryTable) (k : String)
    (so : Option SortOrder) (f : Option Filter) (hk : k ≠ "") :
    t.query ⟨none, none, some k, so, f⟩
      = sortStable (sortLe k so) (queryPreSort t f) := by
  unfold InMemoryTable.query queryPreSort jsSlice
  dsimp only
  cases f <;> simp [hk]

/-- With a present but empty `sortBy` — falsy in JS — `query` skips the sort
entirely and returns the filter stage's output. -/
theorem query_sort_stage_empty (t : InMemoryTable)
    (so : Option SortOrder) (f : Option Filter) :
    t.query ⟨none, none, some "", so, f⟩ = queryPreSort t f := by
  unfold InMemoryTable.query queryPreSort jsSlice
  dsimp only
  cases f <;> simp

/-! ## The claims -/

/-- C6: for every store state and every id not present in the store,
`update(id, patch)` returns an absent-value result (`undefined`) and performs
no mutation — the resulting store state is the state the call started from,
so contents and size are unchanged, for every patch. -/
theorem c6_update_absent_no_mutation (t : InMemoryTable) (id : String)
    (patch : TableRow) (h : jsMapGet t.rows id = none) :
    t.update id patch = (none, t) :=
  InMemoryTable.update_of_absent t id patch h

/-- A concrete store exercising C6's hypothesis. -/
def tAbsent : InMemoryTable :=
  ⟨[("a", [("id", .vstr "a"), ("age", .vnum 30)])]⟩

theorem c6_update_absent_no_mutation_witness :
    jsMapGet tAbsent.rows "b" = none
      ∧ tAbsent.update "b" [("age", .vnum 99)] = (none, tAbsent) :=
  ⟨by decide, c6_update_absent_no_mutation tAbsent "b" [("age", .vnum 99)] (by decide)⟩

/-- C10: for every store state (with the pairwise-distinct keys every
reachable state has, `keys_nodup_runOps`), `delete(id)` returns whether a
removal occurred and is idempotent: deleting a present id returns `true` and
shrinks the store by exactly one entry, deleting it again returns `false` and
changes nothing, and deleting a missing id is not an error — it returns
`false` and leaves the store as it was. -/
theorem c10_delete_idempotent (t : InMemoryTable) (id : String)
    (hnd : (t.rows.map Prod.fst).Nodup) :
    ((jsMapGet t.rows id).isSome →
        (t.delete id).1 = true
          ∧ (t.delete id).2.rows.length + 1 = t.rows.length
          ∧ (t.delete id).2.delete id = (false, (t.delete id).2))
      ∧ (jsMapGet t.rows id = none → t.delete id = (false, t)) := by
  constructor
  · intro hsome
    have hne : jsMapGet t.rows id ≠ none := by
      cases hget : jsMapGet t.rows id
      · rw [hget] at hsome; cases hsome
      · exact fun hc => by cases hc
    obtain ⟨h₁, h₂⟩ := jsMapDelete_mem t.rows id hne
    refine ⟨h₁, h₂, ?_⟩
    have hgone : jsMapGet (t.delete id).2.rows id = none :=
      jsMapGet_jsMapDelete t.rows id hnd
    have hrest := jsMapDelete_not_mem (t.delete id).2.rows id hgone
    show ((jsMapDelete (t.delete id).2.rows id).1, (⟨(jsMapDelete (t.delete id).2.rows id).2⟩ : InMemoryTable))
        = (false, (t.delete id).2)
    rw [hrest]
  · intro hnone
    have := jsMapDelete_not_mem t.rows id hnone
    show ((jsMapDelete t.rows id).1, (⟨(jsMapDelete t.rows id).2⟩ : InMemoryTable)) = (false, t)
    rw [this]

theorem c10_delete_idempotent_witness :
    (tAbsent.delete "a").1 = true
      ∧ (tAbsent.delete "a").2.rows.length + 1 = tAbsent.rows.length
      ∧ (tAbsent.delete "a").2.delete "a" = (false, (tAbsent.delete "a").2)
      ∧ tAbsent.delete "b" = (false, tAbsent) := by
  have h₁ := (c10_delete_idempotent tAbsent "a" (by decide)).1 (by decide)
  have h₂ := (c10_delete_idempotent tAbsent "b" (by decide)).2 (by decide)
  exact ⟨h₁.1, h₁.2.1, h₁.2.2, h₂⟩

/-- C3: for every record inserted without an explicit identifier, the
returned record carries the generated identifier, and `get` at that
identifier returns exactly the inserted record extended with the generated
identifier — an insert-then-get round trip — whatever the record's other
field content. -/
theorem c3_insert_get_roundtrip (t : InMemoryTable) (row : TableRow)
    (gen : String) (h : getField row "id" = none) :
    rowId (t.insert row gen).1 = some gen
      ∧ (t.insert row gen).2.get gen = some (row ++ [("id", .vstr gen)]) := by
  have hrowid : rowId row = none := by
    unfold rowId
    rw [h]
  have happend : setField row "id" (.vstr gen) = row ++ [("id", .vstr gen)] :=
    setField_of_getField_none row "id" (.vstr gen) h
  constructor
  · show rowId (cloneRow (setField row "id" (.vstr ((rowId row).getD gen)))) = some gen
    rw [cloneRow_eq, hrowid]
    unfold rowId
    rw [getField_setField_self]
    rfl
  · show ((jsMapGet (jsMapSet t.rows ((rowId row).getD gen)
        (setField row "id" (.vstr ((rowId row).getD gen)))) gen).map cloneRow) = _
    rw [hrowid]
    show (jsMapGet (jsMapSet t.rows gen (setField row "id" (.vstr gen))) gen).map cloneRow = _
    rw [jsMapGet_jsMapSet_self]
    simp [cloneRow_eq, happend]

theorem c3_insert_get_roundtrip_witness :
    getField [("age", .vnum 30)] "id" = none
      ∧ rowId (tAbsent.insert [("age", .vnum 30)] "fa3bc9d1-k2x").1
          = some "fa3bc9d1-k2x"
      ∧ (tAbsent.insert [("age", .vnum 30)] "fa3bc9d1-k2x").2.get "fa3bc9d1-k2x"
          = some [("age", .vnum 30), ("id", .vstr "fa3bc9d1-k2x")] := by
  have h := c3_insert_get_roundtrip tAbsent [("age", .vnum 30)] "fa3bc9d1-k2x" (by decide)
  exact ⟨by decide, h.1, h.2⟩

/-- The two-operation sequence on which C1 fails: insert a record under id
`"x"`, then update it with a patch that itself rebinds the `id` field to
`"y"`.  The spread `{...existing, ...patch}` (`src/bigcode.ts` line 167) lets
the patch overwrite `id`, after which the stored record's identifier differs
from the key it is stored under. -/
def opsIdClobber : List Op :=
  [.opInsert [("id", .vstr "x")] "g1aa-h1",
    .opUpdate "x" [("id", .vstr "y")]]

/-- C1, counterexample: after the sequence `opsIdClobber` the store violates
the claimed invariant — the record stored under key `"x"` carries identifier
`"y"`. -/
theorem c1_counterexample :
    ¬ StoreInv (runOps opsIdClobber)
      ∧ (runOps opsIdClobber).get "x" = some [("id", .vstr "y")] := by
  decide

/-- C1, amended: restricted to operation sequences in which every id handed
to `insert` (explicit or generated) is non-empty and no `update` patch
rebinds the `id` field to anything but the target id, every reachable store
state satisfies the invariant: each stored record's `id` equals the (unique,
non-empty) key it is stored under. -/
theorem c1_invariant_good_ops (ops : List Op) (h : GoodOps ops) :
    StoreInv (runOps ops) :=
  storeInv_runOps_from .empty ops storeInv_empty h

/-- A concrete sequence exercising C1's amended statement, with a generated
id of `makeId`'s shape (hence non-empty, `makeId_ne_empty`). -/
def opsGood : List Op :=
  [.opInsert [("age", .vnum 30)] (makeId "user_" "4f2a" "9c1d" "m3k0x"),
    .opInsert [("id", .vstr "b"), ("age", .vnum 20)] "z9y8-w1",
    .opUpdate "b" [("id", .vstr "b"), ("age", .vnum 21)],
    .opDelete "b",
    .opInsert [("id", .vstr "c")] "q1q2-e3"]

theorem c1_invariant_good_ops_witness :
    GoodOps opsGood ∧ StoreInv (runOps opsGood) :=
  ⟨by decide, c1_invariant_good_ops opsGood (by decide)⟩

/-- The store and row on which C2 fails: `"a"` is already a key. -/
def tDup : InMemoryTable :=
  (InMemoryTable.empty.insert [("id", .vstr "a"), ("v", .vnum 1)] "g1aa-h2").2

/-- C2, counterexample: inserting a record whose explicit identifier `"a"` is
already a key does not fail — `Map.prototype.set` (`src/bigcode.ts` line 155)
silently replaces the stored record.  The old record is gone, the new one is
stored, the entry count is still one, and the call returned the new record
normally (the embedded `insert`, a total function translated from the source,
has no error outcome at all). -/
theorem c2_counterexample :
    tDup.get "a" = some [("id", .vstr "a"), ("v", .vnum 1)]
      ∧ (tDup.insert [("id", .vstr "a"), ("v", .vnum 2)] "g1aa-h3").2.get "a"
          = some [("id", .vstr "a"), ("v", .vnum 2)]
      ∧ (tDup.insert [("id", .vstr "a"), ("v", .vnum 2)] "g1aa-h3").2.rows.length = 1
      ∧ (tDup.insert [("id", .vstr "a"), ("v", .vnum 2)] "g1aa-h3").1
          = [("id", .vstr "a"), ("v", .vnum 2)] := by
  decide

/-- C2, amended: for every store and every record carrying an explicit
identifier that is already a key, `insert(record)` silently replaces the
stored record — it returns the new record normally, the key set (hence the
size) is unchanged, and `get` now observes the new record.  No
`DuplicateKeyError` exists: no store operation in the source has any error
outcome. -/
theorem c2_insert_duplicate_overwrites (t : InMemoryTable) (row : TableRow)
    (id gen : String) (hid : rowId row = some id)
    (hdup : jsMapGet t.rows id ≠ none) :
    (t.insert row gen).1 = setField row "id" (.vstr id)
      ∧ (t.insert row gen).2.rows.map Prod.fst = t.rows.map Prod.fst
      ∧ (t.insert row gen).2.get id = some (setField row "id" (.vstr id)) := by
  refine ⟨?_, ?_, ?_⟩
  · show cloneRow (setField row "id" (.vstr ((rowId row).getD gen))) = _
    rw [hid, cloneRow_eq]
    rfl
  · show (jsMapSet t.rows ((rowId row).getD gen) _).map Prod.fst = _
    rw [hid]
    exact keys_jsMapSet_of_mem t.rows id _ hdup
  · show (jsMapGet (jsMapSet t.rows ((rowId row).getD gen)
        (setField row "id" (.vstr ((rowId row).getD gen)))) id).map cloneRow = _
    rw [hid]
    show (jsMapGet (jsMapSet t.rows id (setField row "id" (.vstr id))) id).map cloneRow = _
    rw [jsMapGet_jsMapSet_self]
    simp [cloneRow_eq]

theorem c2_insert_duplicate_overwrites_witness :
    (tDup.insert [("id", .vstr "a"), ("v", .vnum 3)] "g1aa-h4").1
        = [("id", .vstr "a"), ("v", .vnum 3)]
      ∧ (tDup.insert [("id", .vstr "a"), ("v", .vnum 3)] "g1aa-h4").2.rows.map Prod.fst
          = tDup.rows.map Prod.fst
      ∧ (tDup.insert [("id", .vstr "a"), ("v", .vnum 3)] "g1aa-h4").2.get "a"
          = some [("id", .vstr "a"), ("v", .vnum 3)] := by
  have h := c2_insert_duplicate_overwrites tDup [("id", .vstr "a"), ("v", .vnum 3)]
    "a" "g1aa-h4" (by decide) (by decide)
  exact ⟨by rw [h.1]; decide, h.2.1, by rw [h.2.2]; decide⟩

/-- C8: for every store state, a query whose filter maps a field to a plain
value (not a predicate, not a pattern) and that gives no `sortBy` returns
exactly the records whose field is strictly equal to that value — every
matching record, no non-matching record, in the records' original relative
order (`List.filter` keeps order and keeps exactly the matching elements). -/
theorem c8_plain_value_filter (t : InMemoryTable) (k : String) (v : Value) :
    t.query ⟨none, none, none, none, some [(k, FilterVal.val v)]⟩
      = (t.rows.map Prod.snd).filter fun r => strictEqO (getField r k) (some v) := by
  unfold InMemoryTable.query jsSlice
  dsimp only
  rw [cloneRows_eq]
  rw [List.filter_congr (q := fun r => strictEqO (getField r k) (some v)) ?_]
  · simp
  · intro r _
    show (matchOne (.val v) (getField r k) && true) = strictEqO (getField r k) (some v)
    cases hg : getField r k with
    | none => simp [matchOne, strictEqO]
    | some a => simp [matchOne, strictEqO]

theorem c8_plain_value_filter_witness :
    tDup.query ⟨none, none, none, none, some [("v", FilterVal.val (.vnum 1))]⟩
      = (tDup.rows.map Prod.snd).filter
          fun r => strictEqO (getField r "v") (some (.vnum 1)) :=
  c8_plain_value_filter tDup "v" (.vnum 1)

/-- The three-record store of the specification's concrete scenario:
`{id:"a", age:30}`, `{id:"b", age:20}`, `{id:"c", age:25}` inserted in that
order. -/
def opsAges : List Op :=
  [.opInsert [("id", .vstr "a"), ("age", .vnum 30)] "g1aa-h5",
    .opInsert [("id", .vstr "b"), ("age", .vnum 20)] "g1aa-h6",
    .opInsert [("id", .vstr "c"), ("age", .vnum 25)] "g1aa-h7"]

def tAges : InMemoryTable := runOps opsAges

/-- C9: pagination is a contiguous slice applied after filtering and sorting:
`slice(offset, offset + limit)` skips the first `offset` elements and takes
at most `limit`, clamped to the available length; and on the concrete
scenario, `query({sortBy:"age"})` returns the order `b, c, a` while
`query({sortBy:"age", sortOrder:"desc", offset:1, limit:1})` returns `[c]`. -/
theorem c9_pagination_slice :
    (∀ (arr : List TableRow) (offset limit : Nat),
        jsSlice arr offset (offset + limit) = (arr.drop offset).take limit
          ∧ (jsSlice arr offset (offset + limit)).length
              = min limit (arr.length - offset))
      ∧ tAges.query ⟨none, none, some "age", none, none⟩
          = [[("id", .vstr "b"), ("age", .vnum 20)],
             [("id", .vstr "c"), ("age", .vnum 25)],
             [("id", .vstr "a"), ("age", .vnum 30)]]
      ∧ tAges.query ⟨some 1, some 1, some "age", some .desc, none⟩
          = [[("id", .vstr "c"), ("age", .vnum 25)]] := by
  refine ⟨?_, by decide, by decide⟩
  intro arr offset limit
  constructor
  · rw [jsSlice, List.drop_take]
    congr 1
    omega
  · rw [jsSlice, List.drop_take]
    rw [List.length_take, List.length_drop]
    congr 1
    omega

/-- C5: a filter predicate whose evaluation fails marks its record as
non-matching and never propagates out of `query`.  First conjunct: a record
on whose field the predicate throws fails the filter.  Second conjunct:
`query` behaves exactly as if the throwing predicate were replaced by the
total predicate returning `false` where it threw — the failure is confined
to the record, the remaining results are returned normally, and `query`
itself is a total function for every filter. -/
theorem c5_predicate_error_swallowed (t : InMemoryTable)
    (lim off : Option Nat) (sb : Option String) (so : Option SortOrder)
    (k : String) (p : Option Value → Except Unit Bool) (f₁ f₂ : Filter) :
    (∀ r : TableRow, p (getField r k) = .error () →
        rowMatches (f₁ ++ (k, .pred p) :: f₂) r = false)
      ∧ t.query ⟨lim, off, sb, so, some (f₁ ++ (k, .pred p) :: f₂)⟩
          = t.query ⟨lim, off, sb, so,
              some (f₁ ++ (k, .pred fun a => .ok (predCatch p a)) :: f₂)⟩ := by
  have hpt : ∀ r : TableRow,
      rowMatches (f₁ ++ (k, .pred p) :: f₂) r
        = rowMatches (f₁ ++ (k, .pred fun a => .ok (predCatch p a)) :: f₂) r := by
    intro r
    unfold rowMatches
    rw [List.all_append, List.all_append]
    congr 1
  constructor
  · intro r hr
    unfold rowMatches
    rw [List.all_append]
    have hmid : matchOne (.pred p) (getField r k) = false := by
      show predCatch p (getField r k) = false
      unfold predCatch
      rw [hr]
    simp [hmid]
  · unfold InMemoryTable.query
    dsimp only
    rw [List.filter_congr fun r _ => hpt r]

/-- Two records, inserted in this order, whose `""`-named numeric fields are
out of order: the store on which C7's universal claim fails at
`sortBy: ""`. -/
def opsEmptyKey : List Op :=
  [.opInsert [("id", .vstr "a"), ("", .vnum 2)] "g1aa-h8",
    .opInsert [("id", .vstr "b"), ("", .vnum 1)] "g1aa-h9"]

def tEmptyKey : InMemoryTable := runOps opsEmptyKey

/-- C7, counterexample: the claim quantifies over every query with `sortBy`
present, but the source guards the sort with the truthiness test
`if (opts.sortBy)` (`src/bigcode.ts` line 198), and the empty string is
falsy in JS.  With `sortBy: ""` present, records carrying a `""`-named
numeric field (one orderable type, so the claimed "natural ordering"
applies, first conjunct) come back in insertion order with the larger value
first: the result is not stable-sorted by that field. -/
theorem c7_counterexample :
    KeysComparable "" (queryPreSort tEmptyKey none)
      ∧ tEmptyKey.query ⟨none, none, some "", none, none⟩
          = [[("id", .vstr "a"), ("", .vnum 2)],
             [("id", .vstr "b"), ("", .vnum 1)]]
      ∧ ¬ (tEmptyKey.query ⟨none, none, some "", none, none⟩).Pairwise
            fun a b => sortLe "" none a b = true := by
  decide

/-- C7, amended: for every query whose `sortBy` is present and non-empty —
a present empty-string `sortBy` is falsy in JS, so the source's
`if (opts.sortBy)` guard skips the sort stage entirely — with default
pagination, the result is the stable sort of the filter stage's output by
that field.  It is a permutation of that output; records whose sort field is
strictly equal to any common value keep their pre-sort relative order — for
`"desc"` exactly as for `"asc"`, so `desc` reverses only the comparison,
never the order of ties; and whenever the sort field's values are of one
orderable type across the records (the field's "natural ordering"), the
result is pairwise ordered by the source's comparator. -/
theorem c7_sort_stable (t : InMemoryTable) (k : String) (so : Option SortOrder)
    (f : Option Filter) (hk : k ≠ "") :
    List.Perm (t.query ⟨none, none, some k, so, f⟩) (queryPreSort t f)
      ∧ (∀ v : Option Value,
          (t.query ⟨none, none, some k, so, f⟩).filter
              (fun r => strictEqO (getField r k) v)
            = (queryPreSort t f).filter fun r => strictEqO (getField r k) v)
      ∧ (KeysComparable k (queryPreSort t f) →
          (t.query ⟨none, none, some k, so, f⟩).Pairwise
            fun a b => sortLe k so a b = true) := by
  rw [query_sort_stage t k so f hk]
  refine ⟨sortStable_perm _ _, ?_, ?_⟩
  · intro v
    refine filter_sortStable _ _ _ ?_
    intro x _ z _ hx hz
    exact sortLe_of_ties k so v x z hx hz
  · intro hcomp
    exact pairwise_sortStable _ _
      (sortLe_total_of_comparable k so _ hcomp)
      (sortLe_trans_of_comparable k so _ hcomp)

/-- A filter predicate that throws on every input. -/
def pThrow : Option Value → Except Unit Bool := fun _ => .error ()

theorem c5_predicate_error_swallowed_witness :
    rowMatches [("age", .pred pThrow)] [("id", .vstr "a"), ("age", .vnum 30)] = false
      ∧ tAges.query ⟨none, none, none, none, some [("age", .pred pThrow)]⟩
          = tAges.query ⟨none, none, none, none,
              some [("age", .pred fun a => .ok (predCatch pThrow a))]⟩ := by
  have h := c5_predicate_error_swallowed tAges none none none none "age" pThrow [] []
  exact ⟨h.1 [("id", .vstr "a"), ("age", .vnum 30)] rfl, h.2⟩

theorem c7_sort_stable_witness :
    List.Perm (tAges.query ⟨none, none, some "age", some .desc, none⟩)
        (queryPreSort tAges none)
      ∧ (tAges.query ⟨none, none, some "age", some .desc, none⟩).filter
            (fun r => strictEqO (getField r "age") (some (.vnum 25)))
          = (queryPreSort tAges none).filter
              (fun r => strictEqO (getField r "age") (some (.vnum 25)))
      ∧ (tAges.query ⟨none, none, some "age", some .desc, none⟩).Pairwise
          fun a b => sortLe "age" (some .desc) a b = true := by
  have h := c7_sort_stable tAges "age" (some .desc) none (by decide)
  exact ⟨h.1, h.2.1 (some (.vnum 25)), h.2.2 (by decide)⟩

/-- Every record `query` returns is one of the snapshot's fresh clones. -/
theorem queryH_fst_sub (h : Heap) (t : TableH) (opts : QueryOptions) :
    ∀ a ∈ (queryH h t opts).1, ∃ p ∈ (snapshotH h t.rows).1, p.1 = a := by
  obtain ⟨lim, off, sb, so, fil⟩ := opts
  intro a ha
  unfold queryH jsSlice at ha
  dsimp only at ha
  obtain ⟨p, hp, rfl⟩ := List.mem_map.mp ha
  refine ⟨p, ?_, rfl⟩
  have hp₁ := List.take_subset _ _ (List.drop_subset _ _ hp)
  cases sb with
  | none =>
    cases fil with
    | none => exact hp₁
    | some f =>
      dsimp only at hp₁
      exact List.filter_subset' _ hp₁
  | some k =>
    dsimp only at hp₁
    by_cases hk : k = ""
    · rw [if_pos hk] at hp₁
      cases fil with
      | none => exact hp₁
      | some f =>
        dsimp only at hp₁
        exact List.filter_subset' _ hp₁
    · rw [if_neg hk] at hp₁
      have hp₂ := (mem_sortStable _ _ p).mp hp₁
      cases fil with
      | none => exact hp₂
      | some f =>
        dsimp only at hp₂
        exact List.filter_subset' _ hp₂

/-- C4: copy isolation.  For every well-formed heap/store state: the object
`get` returns, the object `insert` returns, the object `update` returns, and
every record object `query` returns live at addresses the store does not
hold, and overwriting any of those objects with any row leaves what every
subsequent `get` observes (for every id) unchanged — no operation ever
returns an aliased reference to the store's internal state. -/
theorem c4_copy_isolation (h : Heap) (t : TableH) (hwf : HeapWF h t) :
    (∀ (id : String) (a : Nat) (h' : Heap),
        getH h t id = (some a, h') →
          a ∉ storeAddrs t
            ∧ ∀ (r : TableRow) (id' : String),
                getValH (hwrite h' a r) t id' = getValH h t id')
      ∧ (∀ (row : TableRow) (gen : String),
          (insertH h t row gen).1 ∉ storeAddrs (insertH h t row gen).2.1
            ∧ ∀ (r : TableRow) (id' : String),
                getValH (hwrite (insertH h t row gen).2.2 (insertH h t row gen).1 r)
                    (insertH h t row gen).2.1 id'
                  = getValH (insertH h t row gen).2.2 (insertH h t row gen).2.1 id')
      ∧ (∀ (id : String) (patch : TableRow) (a : Nat) (t' : TableH) (h' : Heap),
          updateH h t id patch = (some a, t', h') →
            a ∉ storeAddrs t'
              ∧ ∀ (r : TableRow) (id' : String),
                  getValH (hwrite h' a r) t' id' = getValH h' t' id')
      ∧ (∀ (opts : QueryOptions) (a : Nat), a ∈ (queryH h t opts).1 →
          a ∉ storeAddrs t
            ∧ ∀ (r : TableRow) (id' : String),
                getValH (hwrite (queryH h t opts).2 a r) t id'
                  = getValH h t id') := by
  have hnext_not : h.next ∉ storeAddrs t := fun hmem =>
    absurd (storeAddrs_lt h t hwf _ hmem) (lt_irrefl _)
  refine ⟨?_, ?_, ?_, ?_⟩
  · -- get
    intro id a h' heq
    unfold getH at heq
    cases hm : jsMapGet t.rows id with
    | none => rw [hm] at heq; simp at heq
    | some b =>
      rw [hm] at heq
      dsimp only at heq
      cases hr : hread h b with
      | none => rw [hr] at heq; simp at heq
      | some r =>
        rw [hr] at heq
        dsimp only at heq
        have ha : h.next = a := Option.some_inj.mp (congrArg Prod.fst heq)
        have hh' : (halloc h (cloneRow r)).2 = h' := congrArg Prod.snd heq
        subst ha
        subst hh'
        refine ⟨hnext_not, ?_⟩
        intro r' id'
        rw [getValH_hwrite _ _ _ _ hnext_not id']
        exact getValH_of_hext h _ t hwf (halloc_hext h (cloneRow r) hwf.1).1 id'
  · -- insert
    intro row gen
    have hfresh : (insertH h t row gen).1 ∉ storeAddrs (insertH h t row gen).2.1 := by
      intro hmem
      obtain ⟨q, hq, hsnd⟩ := List.mem_map.mp hmem
      rcases mem_jsMapSet _ _ _ q hq with hmem' | heq'
      · have hlt := storeAddrs_lt h t hwf q.2 (List.mem_map.mpr ⟨q, hmem', rfl⟩)
        rw [show (insertH h t row gen).1 = h.next + 1 from rfl] at hsnd
        omega
      · rw [heq'] at hsnd
        rw [show (insertH h t row gen).1 = h.next + 1 from rfl] at hsnd
        simp [halloc] at hsnd
    exact ⟨hfresh, fun r id' => getValH_hwrite _ _ _ r hfresh id'⟩
  · -- update
    intro id patch a t' h' heq
    unfold updateH at heq
    cases hm : jsMapGet t.rows id with
    | none => rw [hm] at heq; simp at heq
    | some b =>
      rw [hm] at heq
      dsimp only at heq
      cases hr : hread h b with
      | none => rw [hr] at heq; simp at heq
      | some existing =>
        rw [hr] at heq
        dsimp only at heq
        have hrest := congrArg Prod.snd heq
        have ht' : (⟨jsMapSet t.rows id (halloc h (mergeRows existing patch)).1⟩ : TableH) = t' :=
          congrArg Prod.fst hrest
        have hh' : (halloc (halloc h (mergeRows existing patch)).2
            (cloneRow (mergeRows existing patch))).2 = h' := congrArg Prod.snd hrest
        have ha : h.next + 1 = a := by
          have := congrArg Prod.fst heq
          exact Option.some_inj.mp this
        subst ht'
        subst hh'
        subst ha
        have hfresh : h.next + 1 ∉
            storeAddrs (⟨jsMapSet t.rows id (halloc h (mergeRows existing patch)).1⟩ : TableH) := by
          intro hmem
          obtain ⟨q, hq, hsnd⟩ := List.mem_map.mp hmem
          rcases mem_jsMapSet _ _ _ q hq with hmem' | heq'
          · have hlt := storeAddrs_lt h t hwf q.2 (List.mem_map.mpr ⟨q, hmem', rfl⟩)
            omega
          · rw [heq'] at hsnd
            simp [halloc] at hsnd
        exact ⟨hfresh, fun r id' => getValH_hwrite _ _ _ r hfresh id'⟩
  · -- query
    intro opts a ha
    obtain ⟨p, hpmem, rfl⟩ := queryH_fst_sub h t opts a ha
    obtain ⟨hext, _, hfresh⟩ := snapshotH_spec t.rows h hwf.1
    have hge := hfresh p hpmem
    have hnot : p.1 ∉ storeAddrs t := fun hmem =>
      absurd (lt_of_lt_of_le (storeAddrs_lt h t hwf _ hmem) hge) (lt_irrefl _)
    refine ⟨hnot, ?_⟩
    intro r id'
    have hq2 : (queryH h t opts).2 = (snapshotH h t.rows).2 := rfl
    rw [hq2, getValH_hwrite _ _ _ _ hnot id']
    exact getValH_of_hext h _ t hwf hext id'

/-- A concrete well-formed heap/store pair for C4: one record stored at
address `0` under id `"a"`. -/
def hC4 : Heap := ⟨[(0, [("id", .vstr "a"), ("age", .vnum 30)])], 1⟩

def tC4 : TableH := ⟨[("a", 0)]⟩

theorem c4_copy_isolation_witness :
    HeapWF hC4 tC4
      ∧ 1 ∉ storeAddrs tC4
      ∧ getValH (hwrite (getH hC4 tC4 "a").2 1 [("hacked", .vnull)]) tC4 "a"
          = getValH hC4 tC4 "a" := by
  have h := (c4_copy_isolation hC4 tC4 (by decide)).1 "a" 1 (getH hC4 tC4 "a").2 (by decide)
  exact ⟨by decide, h.1, h.2 [("hacked", .vnull)] "a"⟩

end BigCode
